import Mathlib

/-!
Verification of the remote log-shipping pipeline in `remote/remote.go`
(`lokiConn`): dispatcher loop, watermark clamping, per-stream grouping and
sorting, sync barrier, and delivery retry. Go channels are modelled as
bounded FIFO lists, the single dispatcher goroutine as explicit state
passing, and `time.After`/timeouts as explicit integer clocks (seconds).
JSON decoding of records is trusted (the source panics via `lo.Must` on
decode failure), so records enter the model already parsed.
-/

set_option linter.unusedSectionVars false
set_option maxRecDepth 4000

namespace LoggerRemote

/-- `batchSize = 100` in remote.go. -/
def batchSize : Nat := 100

/-- `retryInterval = time.Second`, measured in seconds. -/
def retryInterval : Nat := 1

/-- Capacity of `lc.buffer`: `make(chan interface{}, 1000)`. -/
def bufferCap : Nat := 1000

/-- Capacity of `lc.syncs`: `make(chan chan struct{}, batchSize)`. -/
def syncsCap : Nat := batchSize

/-- The dispatcher timer: `watcher := time.After(10 * time.Second)`, in seconds. -/
def timerPeriod : Nat := 10

/-- Timeout of `Sync`: `context.WithTimeout(..., 10*time.Second)`, in seconds. -/
def syncTimeout : Nat := 10

/-- A log record as decoded by `send` from the JSON bytes: `ts` is the
parsed RFC3339Nano time as UnixNano, `level` and `logger` the string
fields (`logger` is `""` when the name field is absent), `labels` the
caller's label-schema value of type `T`, and `payload` the re-marshalled
remaining fields (after `time`/`level`/`logger`/label keys are deleted). -/
structure RawRecord (T : Type) where
  ts : Int
  level : String
  logger : String
  labels : T
  payload : String
deriving DecidableEq

/-- `logKey` from remote.go: the grouping key of a stream. -/
structure logKey (T : Type) where
  Level : String
  Logger : String
  Labels : T
deriving DecidableEq

/-- `logItem` from remote.go: one value of a stream. -/
structure logItem where
  Time : Int
  Data : String
deriving DecidableEq

variable {T : Type} [DecidableEq T]

/-- The key built for a record in `send`. -/
def keyOf (r : RawRecord T) : logKey T :=
  ⟨r.level, r.logger, r.labels⟩

/-- Timestamp clamping in `send`: `if lc.lastTime > ts { ts = lc.lastTime }`. -/
def clampTs (lastTime : Int) (r : RawRecord T) : Int :=
  if lastTime > r.ts then lastTime else r.ts

/-- The `logItem` appended for a record in `send`. -/
def mkItem (lastTime : Int) (r : RawRecord T) : logItem :=
  ⟨clampTs lastTime r, r.payload⟩

/-- `items[key] = append(items[key], it)` on the association-list model of
the Go map `items`. -/
def insertItem (items : List (logKey T × List logItem)) (k : logKey T)
    (it : logItem) : List (logKey T × List logItem) :=
  match items with
  | [] => [(k, [it])]
  | (k', its) :: rest =>
    if k = k' then (k', its ++ [it]) :: rest
    else (k', its) :: insertItem rest k it

/-- Lookup in the association-list model of the Go map `items`. -/
def lookupKey (items : List (logKey T × List logItem)) (k : logKey T) :
    List logItem :=
  match items with
  | [] => []
  | (k', its) :: rest => if k = k' then its else lookupKey rest k

/-- One iteration of the drain loop of `send`: decode, clamp, and append
the record to its key's group. -/
def drainStep (lastTime : Int) (items : List (logKey T × List logItem))
    (r : RawRecord T) : List (logKey T × List logItem) :=
  insertItem items (keyOf r) (mkItem lastTime r)

/-- The drain loop of `send`: every record currently in `lc.batch` is
decoded, clamped, and appended to its key's group. -/
def drainBatch (lastTime : Int) (batch : List (RawRecord T)) :
    List (logKey T × List logItem) :=
  batch.foldl (drainStep lastTime) []

/-- The comparison used by `sort.Slice` in `send` (sorting by `Time`). -/
def timeLE (a b : logItem) : Prop := a.Time ≤ b.Time

instance : DecidableRel timeLE := fun a b => Int.decLe a.Time b.Time

instance : IsTotal logItem timeLE := ⟨fun a b => Int.le_total a.Time b.Time⟩

instance : IsTrans logItem timeLE :=
  ⟨fun _ _ _ hab hbc => Int.le_trans hab hbc⟩

/-- The per-group `sort.Slice(is, ...)` of `send`. -/
def sortGroups (groups : List (logKey T × List logItem)) :
    List (logKey T × List logItem) :=
  groups.map (fun g => (g.1, List.insertionSort timeLE g.2))

/-- One iteration of the watermark update loop of `send`: read the sorted
group's last element's time and raise the watermark if it is larger. -/
def lastStep (acc : Int) (g : logKey T × List logItem) : Int :=
  let lastTS := (g.2.getLastD ⟨0, ""⟩).Time
  if lastTS > acc then lastTS else acc

/-- The watermark update loop of `send`: for each (sorted) group, read the
last element's time and raise `lastTime` if it is larger. -/
def updateLast (lastTime : Int) (groups : List (logKey T × List logItem)) :
    Int :=
  groups.foldl lastStep lastTime

/-- The state `send` reads and writes: the watermark and the batch buffer. -/
structure SendState (T : Type) where
  lastTime : Int
  batch : List (RawRecord T)
deriving DecidableEq

/-- `lokiConn.send` up to the HTTP delivery: returns the updated state and
the grouped, sorted streams of the payload (`none` when the batch buffer
is empty and the flush is skipped). -/
def send (st : SendState T) : SendState T × Option (List (logKey T × List logItem)) :=
  if st.batch = [] then (st, none)
  else
    let groups := sortGroups (drainBatch st.lastTime st.batch)
    (⟨updateLast st.lastTime groups, []⟩, some groups)

/-- The largest parsed timestamp among the records of a batch (the
"maximum timestamp observed in a flush"). -/
def maxObserved : List (RawRecord T) → Int
  | [] => 0
  | r :: rest => rest.foldl (fun a x => max a x.ts) r.ts

/-- An item of the shared channel `lc.buffer`: raw record bytes or a
barrier token (`chan struct{}`, modelled as a token id). -/
inductive BufItem (T : Type) where
  | data (r : RawRecord T)
  | barrier (tok : Nat)
deriving DecidableEq

/-- `lokiConn.enqueue`: one non-blocking send on `lc.buffer`; fails with
`no space in buffer` when the channel is full. -/
def enqueue (buffer : List (BufItem T)) (item : BufItem T) :
    Except String (List (BufItem T)) :=
  if buffer.length < bufferCap then .ok (buffer ++ [item])
  else .error "no space in buffer"

/-- The dispatcher state owned by `Run`. -/
structure DispState (T : Type) where
  lastTime : Int
  batch : List (RawRecord T)
  syncs : List Nat
deriving DecidableEq

/-- The `lokiConn` state as constructed by `WithRemote`: empty channels
and `lastTime: time.Now().UnixNano()`, where `now` is the wall-clock time
of construction. -/
def withRemoteInit (T : Type) (now : Int) : DispState T :=
  ⟨now, [], []⟩

/-- The barrier-registration step of `Run`: non-blocking send on
`lc.syncs`; when full, receive (discard) the oldest token first. -/
def registerSync (syncs : List Nat) (tok : Nat) : List Nat :=
  if syncs.length < syncsCap then syncs ++ [tok]
  else syncs.tail ++ [tok]

/-- The wake-up event of one `select` iteration of `Run`. -/
inductive Event (T : Type) where
  | recv (i : BufItem T)
  | timer
  | cancel
deriving DecidableEq

/-- The observable outcome of one iteration of `Run`'s loop. -/
structure StepResult (T : Type) where
  state : DispState T
  flushed : Bool
  delivered : Option (List (logKey T × List logItem))
  signaled : List Nat
  terminated : Bool
deriving DecidableEq

/-- The flush tail of an iteration of `Run`: call `send`, then drain
`lc.syncs` closing every pending barrier channel. -/
def flushStep (st : DispState T) : StepResult T :=
  let out := send (⟨st.lastTime, st.batch⟩ : SendState T)
  { state := ⟨out.1.lastTime, out.1.batch, []⟩
    flushed := true
    delivered := out.2
    signaled := st.syncs
    terminated := false }

/-- One iteration of `Run`'s loop: receive a buffer item, a timer tick or
cancellation; data records are moved to `lc.batch` (continuing when the
batch is not full), barrier tokens are registered, then the iteration
falls through to the flush tail. -/
def runStep (st : DispState T) (ev : Event T) : StepResult T :=
  match ev with
  | .recv (.data r) =>
    let batch' := st.batch ++ [r]
    if batch'.length < batchSize then
      { state := ⟨st.lastTime, batch', st.syncs⟩
        flushed := false
        delivered := none
        signaled := []
        terminated := false }
    else flushStep ⟨st.lastTime, batch', st.syncs⟩
  | .recv (.barrier tok) => flushStep ⟨st.lastTime, st.batch, registerSync st.syncs tok⟩
  | .timer => flushStep st
  | .cancel =>
    { state := st
      flushed := false
      delivered := none
      signaled := []
      terminated := true }

/-- Iterated dispatcher: runs `runStep` on each event in order (stopping on
cancellation) and collects every token signaled along the way. -/
def runTrace (st : DispState T) : List (Event T) → DispState T × List Nat
  | [] => (st, [])
  | ev :: evs =>
    let r := runStep st ev
    if r.terminated then (r.state, r.signaled)
    else
      let rest := runTrace r.state evs
      (rest.1, r.signaled ++ rest.2)

/-- Outcome of `lokiConn.Sync`. -/
inductive SyncResult where
  | ok
  | syncTimeout
  | bufferFull
deriving DecidableEq

/-- `lokiConn.Sync`: enqueue a fresh barrier channel, then wait for it to
be closed or for the 10-second timeout. `signalAt` is the time (seconds
after the call) at which the dispatcher closes the token's channel, `none`
when it never does. -/
def Sync (buffer : List (BufItem T)) (tok : Nat) (signalAt : Option Nat) :
    SyncResult × List (BufItem T) :=
  match enqueue buffer (BufItem.barrier tok) with
  | .error _ => (.bufferFull, buffer)
  | .ok buf' =>
    match signalAt with
    | some t => if t < syncTimeout then (.ok, buf') else (.syncTimeout, buf')
    | none => (.syncTimeout, buf')

/-- Outcome of one HTTP attempt of the delivery loop in `send`: a status
code, or a transport error (`http.DefaultClient.Do` failed, including a
request aborted by cancellation or the 3-second per-attempt timeout). -/
inductive Attempt where
  | status (code : Nat)
  | transportError
deriving DecidableEq

/-- The success test of the delivery loop:
`resp.StatusCode != http.StatusNoContent` (204) is a failure, as is any
transport error. -/
def attemptOK (a : Attempt) : Bool :=
  match a with
  | .status code => code = 204
  | .transportError => false

/-- Terminal outcome of the delivery loop, with the number of attempts made. -/
inductive DeliverResult where
  | delivered (attempts : Nat)
  | cancelled (attempts : Nat)
deriving DecidableEq

/-- Observable trace of the delivery loop: the payload posted by each
attempt, the waits between attempts (seconds), and the outcome (`none`
when the simulated prefix of `fuel` attempts has not terminated). -/
structure DeliverTrace (P : Type) where
  requests : List P
  waits : List Nat
  result : Option DeliverResult
deriving DecidableEq

/-- The retry loop at the end of `send`: POST the payload; on 204 return;
otherwise wait on cancellation vs `time.After(retryInterval)` and retry.
`attempt p n` is the outcome of the `n`-th POST of payload `p`;
`cancelAt n` tells whether the cancellation signal is ready during the
wait following attempt `n`. `fuel` bounds the number of simulated
attempts; the loop itself has no bound. -/
def deliverLoop {P : Type} (payload : P) (attempt : P → Nat → Attempt)
    (cancelAt : Nat → Bool) : Nat → Nat → DeliverTrace P
  | 0, _ => ⟨[], [], none⟩
  | fuel + 1, n =>
    if attemptOK (attempt payload n) then
      ⟨[payload], [], some (.delivered (n + 1))⟩
    else if cancelAt n then
      ⟨[payload], [], some (.cancelled (n + 1))⟩
    else
      match deliverLoop payload attempt cancelAt fuel (n + 1) with
      | t => ⟨payload :: t.requests, retryInterval :: t.waits, t.result⟩

/-- The delivery loop started at attempt 0. -/
def deliver {P : Type} (payload : P) (attempt : P → Nat → Attempt)
    (cancelAt : Nat → Bool) (fuel : Nat) : DeliverTrace P :=
  deliverLoop payload attempt cancelAt fuel 0

/-- Byte heap for the `Write` model: locations holding byte slices. Zap
reuses the caller's buffer, so `Write` must copy before enqueuing. -/
def Heap : Type := Nat → List Nat

/-- Mutation of one heap location. -/
def Heap.update (h : Heap) (loc : Nat) (v : List Nat) : Heap :=
  fun l => if l = loc then v else h l

/-- An item of `lc.buffer` in the byte-level model of `Write`: a
pipeline-owned location holding copied record bytes, or a barrier token. -/
inductive HeapItem where
  | bytesAt (loc : Nat)
  | barrier (tok : Nat)
deriving DecidableEq

/-- `lokiConn.enqueue` on the byte-level buffer. -/
def enqueueH (buffer : List HeapItem) (item : HeapItem) :
    Except String (List HeapItem) :=
  if buffer.length < bufferCap then .ok (buffer ++ [item])
  else .error "no space in buffer"

/-- State touched by `lokiConn.Write`: the heap and the shared buffer. -/
structure WriteState where
  heap : Heap
  buffer : List HeapItem

/-- `lokiConn.Write`: copy the entry bytes into a fresh slice
(`data := make([]byte, len(entry)); copy(data, entry)`), then attempt a
single non-blocking enqueue of the copy; returns `len(data)` and the
enqueue outcome. `entryLoc` is the caller's (reusable) buffer location,
`freshLoc` the location of the fresh slice. -/
def Write (st : WriteState) (entryLoc freshLoc : Nat) :
    WriteState × Nat × Except String Unit :=
  let data := st.heap entryLoc
  let heap' := st.heap.update freshLoc data
  match enqueueH st.buffer (.bytesAt freshLoc) with
  | .ok buf' => (⟨heap', buf'⟩, data.length, .ok ())
  | .error e => (⟨heap', st.buffer⟩, data.length, .error e)

/-- Timed model of `Run`'s select loop for data records: `arrivals` are
the times (seconds) at which successive records are received from
`lc.buffer`, `now` the time the current iteration armed its `watcher`
(`time.After` is re-armed at the top of every iteration), `batchLen` the
current occupancy of `lc.batch`. Output: the flush times, tagged `true`
for a batch-full flush and `false` for a timer flush. `fuel` bounds the
number of simulated loop iterations; after the last arrival only the next
timer flush is reported. -/
def runTimedF : Nat → List Nat → Nat → Nat → List (Nat × Bool)
  | 0, _, _, _ => []
  | _ + 1, [], now, _ => [(now + timerPeriod, false)]
  | fuel + 1, t :: rest, now, batchLen =>
    if t ≤ now + timerPeriod then
      if batchLen + 1 < batchSize then runTimedF fuel rest t (batchLen + 1)
      else (t, true) :: runTimedF fuel rest t 0
    else (now + timerPeriod, false) :: runTimedF fuel (t :: rest) (now + timerPeriod) 0

/-- The flush-period property claimed of the dispatcher: every flush
happens within `timerPeriod` of the previous one (or of loop start). -/
def gapsOkB : Nat → List (Nat × Bool) → Bool
  | _, [] => true
  | prev, (t, _) :: rest => decide (t ≤ prev + timerPeriod) && gapsOkB t rest

/-! ## Claim theorems -/

/-- Claim C4: `Sync` returns success exactly when the barrier token's
completion signal fires within the 10-second timeout, returns a timeout
condition when the timeout elapses first, and returns the buffer-full
condition (leaving the buffer unchanged, without waiting) when the token
cannot be enqueued into the shared buffer. -/
theorem claim_C4 (buffer : List (BufItem T)) (tok : Nat)
    (signalAt : Option Nat) :
    (bufferCap ≤ buffer.length → Sync buffer tok signalAt = (.bufferFull, buffer))
    ∧ (buffer.length < bufferCap →
        ((Sync buffer tok signalAt).1 = .ok ↔
          ∃ t, signalAt = some t ∧ t < syncTimeout)
        ∧ ((Sync buffer tok signalAt).1 = .syncTimeout ↔
          signalAt = none ∨ ∃ t, signalAt = some t ∧ syncTimeout ≤ t)) := by
  constructor
  · intro h
    simp [Sync, enqueue, Nat.not_lt.mpr h]
  · intro h
    cases signalAt with
    | none => simp [Sync, enqueue, h]
    | some t =>
      by_cases ht : t < syncTimeout
      · simp [Sync, enqueue, h, ht]
      · simp [Sync, enqueue, h, ht, Nat.not_lt.mp ht]

/-- Witness for C4 at concrete inputs: an empty buffer with the signal
firing at 3 seconds yields success, and at 12 seconds yields the timeout. -/
theorem claim_C4_witness :
    ((Sync ([] : List (BufItem Bool)) 0 (some 3)).1 = SyncResult.ok ↔
      ∃ t, (some 3 : Option Nat) = some t ∧ t < syncTimeout)
    ∧ ((Sync ([] : List (BufItem Bool)) 0 (some 12)).1 = SyncResult.syncTimeout ↔
      (some 12 : Option Nat) = none ∨
        ∃ t, (some 12 : Option Nat) = some t ∧ syncTimeout ≤ t) :=
  ⟨((claim_C4 ([] : List (BufItem Bool)) 0 (some 3)).2 (by decide)).1,
   ((claim_C4 ([] : List (BufItem Bool)) 0 (some 12)).2 (by decide)).2⟩

/-- Claim C7: a timer-triggered flush with an empty batch buffer attempts
no delivery and leaves the watermark unchanged, yet still signals and
removes every currently pending barrier token. -/
theorem claim_C7 (st : DispState T) (h : st.batch = []) :
    (runStep st .timer).flushed = true
    ∧ (runStep st .timer).delivered = none
    ∧ (runStep st .timer).state.lastTime = st.lastTime
    ∧ (runStep st .timer).signaled = st.syncs
    ∧ (runStep st .timer).state.syncs = [] := by
  simp [runStep, flushStep, send, h]

/-- Witness for C7: empty batch, watermark 5, two pending tokens. -/
theorem claim_C7_witness :
    (runStep (⟨5, [], [1, 2]⟩ : DispState Bool) .timer).delivered = none
    ∧ (runStep (⟨5, [], [1, 2]⟩ : DispState Bool) .timer).signaled = [1, 2]
    ∧ (runStep (⟨5, [], [1, 2]⟩ : DispState Bool) .timer).state.lastTime = 5 :=
  ⟨(claim_C7 (⟨5, [], [1, 2]⟩ : DispState Bool) rfl).2.1,
   (claim_C7 (⟨5, [], [1, 2]⟩ : DispState Bool) rfl).2.2.2.1,
   (claim_C7 (⟨5, [], [1, 2]⟩ : DispState Bool) rfl).2.2.1⟩

/-- Claim C8: `Write` copies the entry bytes before enqueuing (mutating
the caller's buffer afterwards leaves the pipeline's copy intact), returns
the copied length, attempts exactly one non-blocking enqueue, and when the
shared buffer is full returns the buffer-full error with the record
dropped (buffer unchanged) and no retry. -/
theorem claim_C8 (st : WriteState) (entryLoc freshLoc : Nat)
    (hfresh : freshLoc ≠ entryLoc) :
    ((Write st entryLoc freshLoc).2.1 = (st.heap entryLoc).length)
    ∧ ((Write st entryLoc freshLoc).1.heap freshLoc = st.heap entryLoc)
    ∧ (∀ newBytes,
        ((Write st entryLoc freshLoc).1.heap.update entryLoc newBytes) freshLoc
          = st.heap entryLoc)
    ∧ (st.buffer.length < bufferCap →
        (Write st entryLoc freshLoc).2.2 = .ok ()
        ∧ (Write st entryLoc freshLoc).1.buffer
            = st.buffer ++ [HeapItem.bytesAt freshLoc])
    ∧ (bufferCap ≤ st.buffer.length →
        (Write st entryLoc freshLoc).2.2 = .error "no space in buffer"
        ∧ (Write st entryLoc freshLoc).1.buffer = st.buffer) := by
  by_cases hbuf : st.buffer.length < bufferCap
  · refine ⟨?_, ?_, ?_, ?_, ?_⟩
    · simp [Write, enqueueH, hbuf]
    · simp [Write, enqueueH, hbuf, Heap.update]
    · intro newBytes
      simp [Write, enqueueH, hbuf, Heap.update, hfresh]
    · intro _
      exact ⟨by simp [Write, enqueueH, hbuf], by simp [Write, enqueueH, hbuf]⟩
    · intro h
      exact absurd hbuf (Nat.not_lt.mpr h)
  · refine ⟨?_, ?_, ?_, ?_, ?_⟩
    · simp [Write, enqueueH, hbuf]
    · simp [Write, enqueueH, hbuf, Heap.update]
    · intro newBytes
      simp [Write, enqueueH, hbuf, Heap.update, hfresh]
    · intro h
      exact absurd h hbuf
    · intro _
      exact ⟨by simp [Write, enqueueH, hbuf], by simp [Write, enqueueH, hbuf]⟩

/-- Witness for C8: a concrete heap with entry bytes `[7, 8]` at location
0, copied to location 1; mutating location 0 afterwards leaves the copy. -/
theorem claim_C8_witness :
    ((Write ⟨fun l => if l = 0 then [7, 8] else [], []⟩ 0 1).2.1 = 2)
    ∧ (((Write ⟨fun l => if l = 0 then [7, 8] else [], []⟩ 0 1).1.heap.update
          0 [9, 9]) 1 = [7, 8])
    ∧ ((Write ⟨fun l => if l = 0 then [7, 8] else [], []⟩ 0 1).1.buffer
        = [HeapItem.bytesAt 1]) := by
  have h := claim_C8 ⟨fun l => if l = 0 then [7, 8] else [], []⟩ 0 1 (by decide)
  exact ⟨h.1, h.2.2.1 [9, 9], by simpa using (h.2.2.2.1 (by decide)).2⟩

/-- Claim C9: a barrier token received from the shared buffer triggers a
flush in the same dispatcher iteration (delivering the partial batch when
it is nonempty), whereas a data record that does not fill the batch buffer
triggers no flush. -/
theorem claim_C9 (st : DispState T) (tok : Nat) (r : RawRecord T) :
    ((runStep st (.recv (.barrier tok))).flushed = true)
    ∧ (st.batch ≠ [] → (runStep st (.recv (.barrier tok))).delivered =
        some (sortGroups (drainBatch st.lastTime st.batch)))
    ∧ (st.batch.length + 1 < batchSize →
        (runStep st (.recv (.data r))).flushed = false
        ∧ (runStep st (.recv (.data r))).delivered = none
        ∧ (runStep st (.recv (.data r))).state.batch = st.batch ++ [r]) := by
  refine ⟨?_, ?_, ?_⟩
  · simp [runStep, flushStep]
  · intro h
    simp [runStep, flushStep, send, h]
  · intro h
    simp [runStep, h]

/-- Witness for C9: one buffered record, a barrier delivers it at once; a
second data record alone does not flush. -/
theorem claim_C9_witness :
    (runStep (⟨0, [⟨3, "info", "", true, "p"⟩], []⟩ : DispState Bool)
        (.recv (.barrier 5))).delivered =
      some (sortGroups (drainBatch 0 [⟨3, "info", "", true, "p"⟩]))
    ∧ (runStep (⟨0, [⟨3, "info", "", true, "p"⟩], []⟩ : DispState Bool)
        (.recv (.data ⟨4, "info", "", true, "q"⟩))).flushed = false :=
  ⟨(claim_C9 (⟨0, [⟨3, "info", "", true, "p"⟩], []⟩ : DispState Bool) 5
      ⟨4, "info", "", true, "q"⟩).2.1 (by decide),
   ((claim_C9 (⟨0, [⟨3, "info", "", true, "p"⟩], []⟩ : DispState Bool) 5
      ⟨4, "info", "", true, "q"⟩).2.2 (by decide)).1⟩

/-- A token absent from the pending set and different from the newly
registered one stays absent after registration. -/
theorem tok_notMem_registerSync {tok tok' : Nat} {syncs : List Nat}
    (h : tok ∉ syncs) (hne : tok ≠ tok') : tok ∉ registerSync syncs tok' := by
  unfold registerSync
  split
  · intro hmem
    rcases List.mem_append.mp hmem with h1 | h2
    · exact h h1
    · exact hne (List.mem_singleton.mp h2)
  · intro hmem
    rcases List.mem_append.mp hmem with h1 | h2
    · exact h (List.mem_of_mem_tail h1)
    · exact hne (List.mem_singleton.mp h2)

/-- The tokens signaled by one dispatcher iteration are the pending set,
possibly extended by a token registered in the same iteration. -/
theorem runStep_signaled_cases (st : DispState T) (ev : Event T) :
    (runStep st ev).signaled = [] ∨ (runStep st ev).signaled = st.syncs ∨
      ∃ tk, ev = Event.recv (BufItem.barrier tk) ∧
        (runStep st ev).signaled = registerSync st.syncs tk := by
  match ev with
  | .recv (.data r) =>
    by_cases h : st.batch.length + 1 < batchSize
    · left
      simp [runStep, h]
    · right; left
      simp [runStep, h, flushStep]
  | .recv (.barrier tk) =>
    right; right
    exact ⟨tk, rfl, by simp [runStep, flushStep]⟩
  | .timer =>
    right; left
    simp [runStep, flushStep]
  | .cancel =>
    left
    simp [runStep]

/-- After one dispatcher iteration the pending set is unchanged (a
non-flushing iteration) or empty (a flush signaled everyone). -/
theorem runStep_state_syncs (st : DispState T) (ev : Event T) :
    (runStep st ev).state.syncs = st.syncs ∨
      (runStep st ev).state.syncs = [] := by
  match ev with
  | .recv (.data r) =>
    by_cases h : st.batch.length + 1 < batchSize
    · left
      simp [runStep, h]
    · right
      simp [runStep, h, flushStep]
  | .recv (.barrier tk) =>
    right
    simp [runStep, flushStep]
  | .timer =>
    right
    simp [runStep, flushStep]
  | .cancel =>
    left
    simp [runStep]

/-- A token not pending and never re-enqueued is never signaled by any
continuation of the dispatcher. -/
theorem notSignaled_trace (tok : Nat) (evs : List (Event T)) :
    ∀ st : DispState T,
      tok ∉ st.syncs →
      (∀ ev ∈ evs, ev ≠ Event.recv (BufItem.barrier tok)) →
      tok ∉ (runTrace st evs).2 := by
  induction evs with
  | nil =>
    intro st _ _
    simp [runTrace]
  | cons ev evs ih =>
    intro st hst hevs
    have hsig : tok ∉ (runStep st ev).signaled := by
      rcases runStep_signaled_cases st ev with h | h | ⟨tk, hevk, h⟩
      · simp [h]
      · simpa [h] using hst
      · rw [h]
        refine tok_notMem_registerSync hst ?_
        intro htk
        exact hevs ev (List.mem_cons_self _ _) (by rw [hevk, ← htk])
    have hsyncs : tok ∉ (runStep st ev).state.syncs := by
      rcases runStep_state_syncs st ev with h | h
      · simpa [h] using hst
      · simp [h]
    have hrest : ∀ e ∈ evs, e ≠ Event.recv (BufItem.barrier tok) :=
      fun e he => hevs e (List.mem_cons_of_mem _ he)
    have hnext := ih (runStep st ev).state hsyncs hrest
    simp only [runTrace]
    by_cases hterm : (runStep st ev).terminated
    · simpa [hterm] using hsig
    · simpa [hterm, List.mem_append] using And.intro hsig hnext

/-- Claim C6: when a barrier token arrives while the pending set is at
capacity, the oldest pending token is evicted and the new token inserted;
the insertion succeeds (the new token is pending, the set stays at
capacity), the evicted token is not signaled in that registration, and it
is never signaled by any continuation of the dispatcher that does not
re-enqueue it (its waiter is left to time out). -/
theorem claim_C6 (t0 : Nat) (ts : List Nat) (tok : Nat)
    (hcap : (t0 :: ts).length = syncsCap) (hnodup : (t0 :: ts).Nodup)
    (htok : tok ∉ t0 :: ts) :
    registerSync (t0 :: ts) tok = ts ++ [tok]
    ∧ (registerSync (t0 :: ts) tok).length = syncsCap
    ∧ tok ∈ registerSync (t0 :: ts) tok
    ∧ t0 ∉ registerSync (t0 :: ts) tok
    ∧ (∀ (evs : List (Event T)) (st : DispState T),
        st.syncs = registerSync (t0 :: ts) tok →
        (∀ ev ∈ evs, ev ≠ Event.recv (BufItem.barrier t0)) →
        t0 ∉ (runTrace st evs).2) := by
  have hreg : registerSync (t0 :: ts) tok = ts ++ [tok] := by
    unfold registerSync
    rw [if_neg (by omega)]
    rfl
  have ht0ts : t0 ∉ ts := (List.nodup_cons.mp hnodup).1
  have ht0tok : t0 ≠ tok := fun h => htok (h ▸ List.mem_cons_self _ _)
  have ht0 : t0 ∉ registerSync (t0 :: ts) tok := by
    rw [hreg]
    intro hmem
    rcases List.mem_append.mp hmem with h1 | h2
    · exact ht0ts h1
    · exact ht0tok (List.mem_singleton.mp h2)
  refine ⟨hreg, ?_, ?_, ht0, ?_⟩
  · rw [hreg]
    simp only [List.length_append, List.length_singleton]
    simpa using hcap
  · rw [hreg]
    exact List.mem_append.mpr (Or.inr (List.mem_singleton.mpr rfl))
  · intro evs st hst hevs
    refine notSignaled_trace t0 evs st ?_ hevs
    rw [hst]
    exact ht0

/-- Witness for C6: a full pending set `0, 1, ..., 99`, a new token 200;
the evicted token 0 is absent afterwards and unsignaled by a subsequent
timer flush. -/
theorem claim_C6_witness :
    200 ∈ registerSync (0 :: List.range' 1 99) 200
    ∧ 0 ∉ registerSync (0 :: List.range' 1 99) 200
    ∧ 0 ∉ (runTrace (⟨0, [], registerSync (0 :: List.range' 1 99) 200⟩ :
        DispState Bool) [Event.timer]).2 := by
  have h := claim_C6 (T := Bool) 0 (List.range' 1 99) 200 (by decide)
    (by decide) (by decide)
  exact ⟨h.2.2.1, h.2.2.2.1,
    h.2.2.2.2 [Event.timer] ⟨0, [], registerSync (0 :: List.range' 1 99) 200⟩
      rfl (by decide)⟩

/-- Behavior of the delivery loop on a scenario that fails (without
cancellation) for `k` attempts and then either succeeds or is cancelled at
attempt `k`. -/
theorem deliverLoop_run {P : Type} (payload : P) (attempt : P → Nat → Attempt)
    (cancelAt : Nat → Bool) :
    ∀ (k fuel n : Nat),
      (∀ m, m < k → attemptOK (attempt payload (n + m)) = false
        ∧ cancelAt (n + m) = false) →
      k < fuel →
      (attemptOK (attempt payload (n + k)) = true →
        deliverLoop payload attempt cancelAt fuel n =
          ⟨List.replicate (k + 1) payload, List.replicate k retryInterval,
            some (.delivered (n + k + 1))⟩)
      ∧ (attemptOK (attempt payload (n + k)) = false → cancelAt (n + k) = true →
        deliverLoop payload attempt cancelAt fuel n =
          ⟨List.replicate (k + 1) payload, List.replicate k retryInterval,
            some (.cancelled (n + k + 1))⟩) := by
  intro k
  induction k with
  | zero =>
    intro fuel n _ hfuel
    match fuel, hfuel with
    | fuel + 1, _ =>
      constructor
      · intro hok
        simp only [Nat.add_zero] at hok
        simp [deliverLoop, hok]
      · intro hfail hcan
        simp only [Nat.add_zero] at hfail hcan
        simp [deliverLoop, hfail, hcan]
  | succ k ih =>
    intro fuel n hpre hfuel
    match fuel, hfuel with
    | fuel + 1, hfuel =>
      have h0 := hpre 0 (Nat.succ_pos k)
      simp only [Nat.add_zero] at h0
      have hpre' : ∀ m, m < k → attemptOK (attempt payload (n + 1 + m)) = false
          ∧ cancelAt (n + 1 + m) = false := by
        intro m hm
        have := hpre (m + 1) (by omega)
        simpa [Nat.add_assoc, Nat.add_comm 1 m] using this
      have ihk := ih fuel (n + 1) hpre' (by omega)
      have harith : n + 1 + k = n + (k + 1) := by omega
      constructor
      · intro hok
        rw [harith] at ihk
        have := ihk.1 hok
        simp only [deliverLoop, h0.1, h0.2, Bool.false_eq_true, if_false, this]
        simp only [List.replicate_succ, DeliverTrace.mk.injEq, Option.some.injEq,
          DeliverResult.delivered.injEq, true_and]
      · intro hfail hcan
        rw [harith] at ihk
        have := ihk.2 hfail hcan
        simp only [deliverLoop, h0.1, h0.2, Bool.false_eq_true, if_false, this]
        simp only [List.replicate_succ, DeliverTrace.mk.injEq, Option.some.injEq,
          DeliverResult.cancelled.injEq, true_and]

/-- Behavior of the delivery loop on a scenario that always fails and is
never cancelled: it never terminates, re-posting the same payload after a
fixed wait, once per unit of fuel. -/
theorem deliverLoop_unbounded {P : Type} (payload : P)
    (attempt : P → Nat → Attempt) (cancelAt : Nat → Bool)
    (hfail : ∀ m, attemptOK (attempt payload m) = false)
    (hnc : ∀ m, cancelAt m = false) :
    ∀ fuel n, deliverLoop payload attempt cancelAt fuel n =
      ⟨List.replicate fuel payload, List.replicate fuel retryInterval, none⟩ := by
  intro fuel
  induction fuel with
  | zero =>
    intro n
    simp [deliverLoop]
  | succ fuel ih =>
    intro n
    simp [deliverLoop, hfail n, hnc n, ih (n + 1), List.replicate_succ]

/-- Claim C5: exactly HTTP 204 counts as success; every non-204 response
and every transport error leads to a retry of the same payload after the
fixed 1-second interval with no bound on the number of retries, and a
cancellation signal observed during the wait after a failed attempt makes
the loop return a cancellation outcome immediately, abandoning the
payload. -/
theorem claim_C5 {P : Type} (payload : P) (attempt : P → Nat → Attempt)
    (cancelAt : Nat → Bool) (k fuel : Nat) :
    (∀ a : Attempt, attemptOK a = true ↔ a = .status 204)
    ∧ ((∀ m, m < k → attemptOK (attempt payload m) = false
          ∧ cancelAt m = false) →
        k < fuel →
        (attemptOK (attempt payload k) = true →
          deliver payload attempt cancelAt fuel =
            ⟨List.replicate (k + 1) payload, List.replicate k retryInterval,
              some (.delivered (k + 1))⟩)
        ∧ (attemptOK (attempt payload k) = false → cancelAt k = true →
          deliver payload attempt cancelAt fuel =
            ⟨List.replicate (k + 1) payload, List.replicate k retryInterval,
              some (.cancelled (k + 1))⟩))
    ∧ ((∀ m, attemptOK (attempt payload m) = false) →
        (∀ m, cancelAt m = false) →
        deliver payload attempt cancelAt fuel =
          ⟨List.replicate fuel payload, List.replicate fuel retryInterval,
            none⟩) := by
  refine ⟨?_, ?_, ?_⟩
  · intro a
    match a with
    | .status code =>
      simp only [attemptOK, decide_eq_true_eq]
      constructor
      · intro h
        rw [h]
      · intro h
        cases h
        rfl
    | .transportError => simp [attemptOK]
  · intro hpre hfuel
    have := deliverLoop_run payload attempt cancelAt k fuel 0
      (by simpa using hpre) hfuel
    simpa [deliver] using this
  · intro hfail hnc
    simpa [deliver] using deliverLoop_unbounded payload attempt cancelAt hfail hnc fuel 0

/-- Witness for C5: two 500 responses then a 204; the loop posts the same
payload three times with two 1-second waits and reports delivery. -/
theorem claim_C5_witness :
    deliver 7 (fun _ n => if n < 2 then Attempt.status 500 else Attempt.status 204)
        (fun _ => false) 5 =
      ⟨List.replicate 3 7, List.replicate 2 retryInterval,
        some (DeliverResult.delivered 3)⟩ :=
  ((claim_C5 7 (fun _ n => if n < 2 then Attempt.status 500 else Attempt.status 204)
      (fun _ => false) 2 5).2.1
    (by decide) (by decide)).1 (by decide)

/-- Counterexample to claim C1 as stated: with records arriving at 0 s and
9 s (batch far from full, so no batch-full flush ever occurs), the only
flush happens at 19 s — more than 10 seconds after loop start — because
`watcher := time.After(10 * time.Second)` is re-armed at the top of every
loop iteration, so each sub-10-second arrival postpones the timer flush. -/
theorem claim_C1_counterexample :
    ¬ (∀ (arrivals : List Nat) (fuel : Nat),
        (runTimedF fuel arrivals 0 0).all (fun f => !f.2) = true →
        gapsOkB 0 (runTimedF fuel arrivals 0 0) = true) := by
  intro hclaim
  exact absurd (hclaim [0, 9] 3 (by decide)) (by decide)

/-- Claim C1 amended: a timer flush occurs exactly `timerPeriod` (10 s)
after the start of a loop iteration regardless of batch fullness — but
only when no buffer item arrives within that window, because the timer is
re-armed at the top of every iteration. When no further items arrive the
flush comes 10 s after the last wake-up; when the next item is more than
10 s away the timer flush still fires first. Sustained arrivals at
intervals shorter than 10 s postpone the timer flush indefinitely, so the
claimed "flush within 10 seconds of the previous one" bound does not hold
under such traffic. -/
theorem claim_C1_amended (fuel now batchLen t : Nat) (rest : List Nat) :
    runTimedF (fuel + 1) [] now batchLen = [(now + timerPeriod, false)]
    ∧ (now + timerPeriod < t →
        (runTimedF (fuel + 1) (t :: rest) now batchLen).head? =
          some (now + timerPeriod, false)) := by
  constructor
  · simp [runTimedF]
  · intro h
    simp [runTimedF, Nat.not_le.mpr h]

/-- Witness for the amended C1: a nearly full batch (99 records) and a
quiet window still produce the timer flush 10 s after the wake-up at 7 s. -/
theorem claim_C1_amended_witness :
    runTimedF 1 [] 7 99 = [(17, false)]
    ∧ (runTimedF 1 [18] 7 99).head? = some ((17 : Nat), false) :=
  ⟨(claim_C1_amended 0 7 99 18 []).1,
   (claim_C1_amended 0 7 99 18 []).2 (by decide)⟩

/-- Appending to a key's group extends that key's lookup. -/
theorem lookupKey_insertItem_self (items : List (logKey T × List logItem))
    (k : logKey T) (it : logItem) :
    lookupKey (insertItem items k it) k = lookupKey items k ++ [it] := by
  induction items with
  | nil => simp [insertItem, lookupKey]
  | cons g rest ih =>
    obtain ⟨k', its⟩ := g
    by_cases h : k = k'
    · subst h
      simp [insertItem, lookupKey]
    · simp [insertItem, lookupKey, h, ih]

/-- Appending to a key's group leaves other keys' lookups unchanged. -/
theorem lookupKey_insertItem_other (items : List (logKey T × List logItem))
    (k kq : logKey T) (it : logItem) (hne : kq ≠ k) :
    lookupKey (insertItem items k it) kq = lookupKey items kq := by
  induction items with
  | nil => simp [insertItem, lookupKey, hne]
  | cons g rest ih =>
    obtain ⟨k', its⟩ := g
    by_cases h : k = k'
    · subst h
      simp [insertItem, lookupKey, hne]
    · simp [insertItem, lookupKey, h, ih]

/-- Characterization of the drain loop: the group at key `k` holds exactly
the clamped items of the batch records whose key is `k`, in batch order. -/
theorem lookupKey_foldl_drain (lastTime : Int) (k : logKey T) :
    ∀ (batch : List (RawRecord T)) (acc : List (logKey T × List logItem)),
      lookupKey (batch.foldl (drainStep lastTime) acc) k
        = lookupKey acc k
          ++ (batch.filter (fun r => decide (keyOf r = k))).map (mkItem lastTime) := by
  intro batch
  induction batch with
  | nil =>
    intro acc
    simp
  | cons r rest ih =>
    intro acc
    rw [List.foldl_cons, ih]
    by_cases h : keyOf r = k
    · rw [List.filter_cons_of_pos (by simp [h])]
      subst h
      simp [drainStep, lookupKey_insertItem_self]
    · rw [List.filter_cons_of_neg (by simp [h])]
      rw [drainStep, lookupKey_insertItem_other _ _ _ _ (fun hq => h hq.symm)]

/-- The drain loop started from the empty map. -/
theorem lookupKey_drainBatch (lastTime : Int) (batch : List (RawRecord T))
    (k : logKey T) :
    lookupKey (drainBatch lastTime batch) k
      = (batch.filter (fun r => decide (keyOf r = k))).map (mkItem lastTime) := by
  have h := lookupKey_foldl_drain lastTime k batch []
  simpa [drainBatch, lookupKey] using h

/-- Sorting the groups sorts each key's lookup. -/
theorem lookupKey_sortGroups (groups : List (logKey T × List logItem))
    (k : logKey T) :
    lookupKey (sortGroups groups) k
      = List.insertionSort timeLE (lookupKey groups k) := by
  induction groups with
  | nil => simp [sortGroups, lookupKey]
  | cons g rest ih =>
    obtain ⟨k', its⟩ := g
    by_cases h : k = k'
    · subst h
      simp [sortGroups, lookupKey]
    · simp only [sortGroups, List.map_cons, lookupKey, h, if_false]
      exact ih

/-- Every group emitted by `send` is sorted by time. -/
theorem sortGroups_sorted (groups : List (logKey T × List logItem)) :
    ∀ g ∈ sortGroups groups, List.Sorted timeLE g.2 := by
  intro g hg
  rcases List.mem_map.mp hg with ⟨g', _, rfl⟩
  exact List.sorted_insertionSort timeLE g'.2

/-- Insertion into the group map keeps every group nonempty. -/
theorem insertItem_ne_nil (items : List (logKey T × List logItem))
    (k : logKey T) (it : logItem) (hinv : ∀ g ∈ items, g.2 ≠ []) :
    ∀ g ∈ insertItem items k it, g.2 ≠ [] := by
  induction items with
  | nil =>
    intro g hg
    simp only [insertItem, List.mem_singleton] at hg
    subst hg
    simp
  | cons g0 rest ih =>
    obtain ⟨k', its⟩ := g0
    intro g hg
    simp only [insertItem] at hg
    by_cases h : k = k'
    · rw [if_pos h] at hg
      rcases List.mem_cons.mp hg with rfl | hmem
      · simp
      · exact hinv g (List.mem_cons_of_mem _ hmem)
    · rw [if_neg h] at hg
      rcases List.mem_cons.mp hg with rfl | hmem
      · exact hinv _ (List.mem_cons_self _ _)
      · exact ih (fun g' hg' => hinv g' (List.mem_cons_of_mem _ hg')) g hmem

/-- All groups built by the drain loop are nonempty. -/
theorem drainBatch_ne_nil (lastTime : Int) (batch : List (RawRecord T)) :
    ∀ g ∈ drainBatch lastTime batch, g.2 ≠ [] := by
  have main : ∀ (b : List (RawRecord T)) (acc : List (logKey T × List logItem)),
      (∀ g ∈ acc, g.2 ≠ []) →
      ∀ g ∈ b.foldl (drainStep lastTime) acc, g.2 ≠ [] := by
    intro b
    induction b with
    | nil =>
      intro acc hacc
      simpa using hacc
    | cons r rest ih =>
      intro acc hacc
      rw [List.foldl_cons]
      exact ih _ (insertItem_ne_nil _ _ _ hacc)
  intro g hg
  exact main batch [] (by simp) g hg

/-- A key present after insertion was present before or is the inserted key. -/
theorem mem_keys_insertItem (items : List (logKey T × List logItem))
    (k kq : logKey T) (it : logItem)
    (h : kq ∈ (insertItem items k it).map Prod.fst) :
    kq ∈ items.map Prod.fst ∨ kq = k := by
  induction items with
  | nil =>
    simp only [insertItem, List.map_cons, List.map_nil] at h
    right
    simpa using h
  | cons g rest ih =>
    obtain ⟨k', its⟩ := g
    simp only [insertItem] at h
    by_cases hk : k = k'
    · rw [if_pos hk] at h
      simp only [List.map_cons] at h
      rcases List.mem_cons.mp h with rfl | hmem
      · left
        simp
      · left
        simp [hmem]
    · rw [if_neg hk] at h
      simp only [List.map_cons] at h
      rcases List.mem_cons.mp h with rfl | hmem
      · left
        simp
      · rcases ih hmem with h1 | h2
        · left
          simp [h1]
        · right
          exact h2

/-- Insertion into the group map keeps keys distinct (it models a Go map). -/
theorem keys_nodup_insertItem (items : List (logKey T × List logItem))
    (k : logKey T) (it : logItem) (h : (items.map Prod.fst).Nodup) :
    ((insertItem items k it).map Prod.fst).Nodup := by
  induction items with
  | nil => simp [insertItem]
  | cons g rest ih =>
    obtain ⟨k', its⟩ := g
    simp only [List.map_cons, List.nodup_cons] at h
    by_cases hk : k = k'
    · simp only [insertItem, if_pos hk, List.map_cons, List.nodup_cons]
      exact h
    · simp only [insertItem, if_neg hk, List.map_cons, List.nodup_cons]
      refine ⟨?_, ih h.2⟩
      intro hmem
      rcases mem_keys_insertItem rest k k' it hmem with h1 | h2
      · exact h.1 h1
      · exact hk h2.symm

/-- The drain loop produces groups with pairwise distinct keys. -/
theorem keys_nodup_drainBatch (lastTime : Int) (batch : List (RawRecord T)) :
    ((drainBatch lastTime batch).map Prod.fst).Nodup := by
  have main : ∀ (b : List (RawRecord T)) (acc : List (logKey T × List logItem)),
      (acc.map Prod.fst).Nodup →
      ((b.foldl (drainStep lastTime) acc).map Prod.fst).Nodup := by
    intro b
    induction b with
    | nil =>
      intro acc hacc
      simpa using hacc
    | cons r rest ih =>
      intro acc hacc
      rw [List.foldl_cons]
      exact ih _ (keys_nodup_insertItem _ _ _ hacc)
  exact main batch [] (by simp)

/-- With distinct keys, a group's list is its key's lookup. -/
theorem lookupKey_of_mem_nodup (items : List (logKey T × List logItem))
    (k : logKey T) (its : List logItem)
    (hnd : (items.map Prod.fst).Nodup) (hmem : (k, its) ∈ items) :
    lookupKey items k = its := by
  induction items with
  | nil => cases hmem
  | cons g rest ih =>
    obtain ⟨k', its'⟩ := g
    simp only [List.map_cons, List.nodup_cons] at hnd
    rcases List.mem_cons.mp hmem with heq | hmem'
    · cases heq
      simp [lookupKey]
    · have hk : k ≠ k' := by
        intro hkk
        subst hkk
        exact hnd.1 (List.mem_map.mpr ⟨(k, its), hmem', rfl⟩)
      simp only [lookupKey, hk, if_false]
      exact ih hnd.2 hmem'

/-- An item found by lookup belongs to some group with that key. -/
theorem exists_group_of_mem_lookupKey (items : List (logKey T × List logItem))
    (k : logKey T) (i : logItem) (h : i ∈ lookupKey items k) :
    ∃ g ∈ items, g.1 = k ∧ i ∈ g.2 := by
  induction items with
  | nil => simp [lookupKey] at h
  | cons g rest ih =>
    obtain ⟨k', its⟩ := g
    simp only [lookupKey] at h
    by_cases hk : k = k'
    · rw [if_pos hk] at h
      exact ⟨(k', its), List.mem_cons_self _ _, hk.symm, h⟩
    · rw [if_neg hk] at h
      obtain ⟨g', hg', hk', hi⟩ := ih h
      exact ⟨g', List.mem_cons_of_mem _ hg', hk', hi⟩

/-- In a time-sorted list, the last element bounds every member. -/
theorem sorted_le_getLastD (l : List logItem) (d : logItem)
    (hs : List.Sorted timeLE l) : ∀ i ∈ l, i.Time ≤ (l.getLastD d).Time := by
  induction l generalizing d with
  | nil =>
    intro i hi
    cases hi
  | cons x xs ih =>
    intro i hi
    rw [List.getLastD_cons]
    rcases List.mem_cons.mp hi with heq | hmem
    · rw [heq]
      cases xs with
      | nil => simp [List.getLastD]
      | cons y ys =>
        have hm : List.getLastD (y :: ys) x ∈ y :: ys := by
          rw [List.getLastD_cons]
          have := List.getLastD_mem_cons ys y
          rcases List.mem_cons.mp this with h1 | h2
          · rw [h1]
            exact List.mem_cons_self _ _
          · exact List.mem_cons_of_mem _ h2
        exact List.rel_of_sorted_cons hs _ hm
    · exact ih x hs.of_cons i hmem

/-- The watermark update never lowers the watermark. -/
theorem le_updateLast (groups : List (logKey T × List logItem)) :
    ∀ acc : Int, acc ≤ updateLast acc groups := by
  induction groups with
  | nil =>
    intro acc
    simp [updateLast]
  | cons g rest ih =>
    intro acc
    rw [updateLast, List.foldl_cons]
    have h1 : acc ≤ lastStep acc g := by
      simp only [lastStep]
      split <;> omega
    exact le_trans h1 (ih (lastStep acc g))

/-- Every group's last time bounds from below the updated watermark. -/
theorem group_le_updateLast (groups : List (logKey T × List logItem)) :
    ∀ (acc : Int) (g : logKey T × List logItem), g ∈ groups →
      ((g.2.getLastD ⟨0, ""⟩).Time) ≤ updateLast acc groups := by
  induction groups with
  | nil =>
    intro acc g hg
    cases hg
  | cons g0 rest ih =>
    intro acc g hg
    rw [updateLast, List.foldl_cons]
    rcases List.mem_cons.mp hg with rfl | hmem
    · have h1 : (g.2.getLastD ⟨0, ""⟩).Time ≤ lastStep acc g := by
        simp only [lastStep]
        split <;> omega
      exact le_trans h1 (le_updateLast rest (lastStep acc g))
    · exact ih (lastStep acc g0) g hmem

/-- The updated watermark is bounded by any bound on the old watermark and
on every group's last time. -/
theorem updateLast_le (groups : List (logKey T × List logItem)) :
    ∀ acc B : Int, acc ≤ B →
      (∀ g ∈ groups, ((g.2.getLastD ⟨0, ""⟩).Time) ≤ B) →
      updateLast acc groups ≤ B := by
  induction groups with
  | nil =>
    intro acc B h _
    simpa [updateLast] using h
  | cons g rest ih =>
    intro acc B hacc hg
    rw [updateLast, List.foldl_cons]
    refine ih (lastStep acc g) B ?_ (fun g' hg' => hg g' (List.mem_cons_of_mem _ hg'))
    have hb := hg g (List.mem_cons_self _ _)
    simp only [lastStep]
    split <;> omega

/-- The running maximum is bounded below by its seed. -/
theorem foldMax_ge_init (l : List (RawRecord T)) :
    ∀ a : Int, a ≤ l.foldl (fun a x => max a x.ts) a := by
  induction l with
  | nil =>
    intro a
    simp
  | cons x xs ih =>
    intro a
    rw [List.foldl_cons]
    exact le_trans (le_max_left a x.ts) (ih (max a x.ts))

/-- The running maximum is bounded below by every member. -/
theorem foldMax_ge_mem (l : List (RawRecord T)) :
    ∀ (a : Int) (x : RawRecord T), x ∈ l →
      x.ts ≤ l.foldl (fun a y => max a y.ts) a := by
  induction l with
  | nil =>
    intro a x hx
    cases hx
  | cons y ys ih =>
    intro a x hx
    rw [List.foldl_cons]
    rcases List.mem_cons.mp hx with heq | hmem
    · rw [heq]
      exact le_trans (le_max_right a y.ts) (foldMax_ge_init ys (max a y.ts))
    · exact ih (max a y.ts) x hmem

/-- The running maximum is bounded by any bound on seed and members. -/
theorem foldMax_le (l : List (RawRecord T)) :
    ∀ a B : Int, a ≤ B → (∀ x ∈ l, x.ts ≤ B) →
      l.foldl (fun a y => max a y.ts) a ≤ B := by
  induction l with
  | nil =>
    intro a B h _
    simpa using h
  | cons y ys ih =>
    intro a B ha hl
    rw [List.foldl_cons]
    exact ih (max a y.ts) B (max_le ha (hl y (List.mem_cons_self _ _)))
      (fun x hx => hl x (List.mem_cons_of_mem _ hx))

/-- Every batch record's timestamp is bounded by the batch maximum. -/
theorem mem_le_maxObserved (batch : List (RawRecord T)) (r : RawRecord T)
    (hr : r ∈ batch) : r.ts ≤ maxObserved batch := by
  cases batch with
  | nil => cases hr
  | cons x xs =>
    simp only [maxObserved]
    rcases List.mem_cons.mp hr with heq | hmem
    · rw [heq]
      exact foldMax_ge_init xs x.ts
    · exact foldMax_ge_mem xs x.ts r hmem

/-- The batch maximum of a nonempty batch is bounded by any bound on its
members. -/
theorem maxObserved_le (batch : List (RawRecord T)) (B : Int)
    (hne : batch ≠ []) (h : ∀ r ∈ batch, r.ts ≤ B) : maxObserved batch ≤ B := by
  cases batch with
  | nil => exact absurd rfl hne
  | cons x xs =>
    simp only [maxObserved]
    exact foldMax_le xs x.ts B (h x (List.mem_cons_self _ _))
      (fun r hr => h r (List.mem_cons_of_mem _ hr))

/-- The clamp of `send` computes the maximum of watermark and timestamp. -/
theorem clampTs_eq_max (lastTime : Int) (r : RawRecord T) :
    clampTs lastTime r = max lastTime r.ts := by
  simp only [clampTs]
  rcases le_or_lt lastTime r.ts with h | h
  · rw [if_neg (not_lt.mpr h), max_eq_right h]
  · rw [if_pos h, max_eq_left h.le]

/-- The default-valued last element of a nonempty list is a member. -/
theorem getLastD_mem_of_ne_nil {α : Type} (l : List α) (d : α) (hl : l ≠ []) :
    l.getLastD d ∈ l := by
  cases l with
  | nil => exact absurd rfl hl
  | cons a as =>
    rw [List.getLastD_cons]
    exact List.getLastD_mem_cons as a

/-- Every batch record's clamped item appears in its key's stream of the
payload emitted by `send`. -/
theorem mkItem_mem_send (lt : Int) (batch : List (RawRecord T))
    (r : RawRecord T) (hr : r ∈ batch) :
    mkItem lt r ∈
      lookupKey (((send (⟨lt, batch⟩ : SendState T)).2).getD []) (keyOf r) := by
  have hne : batch ≠ [] := by
    rintro rfl
    cases hr
  have hsend : (send (⟨lt, batch⟩ : SendState T)).2
      = some (sortGroups (drainBatch lt batch)) := by
    simp [send, hne]
  rw [hsend, Option.getD_some, lookupKey_sortGroups, lookupKey_drainBatch,
    List.mem_insertionSort]
  refine List.mem_map.mpr ⟨r, ?_, rfl⟩
  rw [List.mem_filter]
  exact ⟨hr, by simp⟩

/-- Claim C3: two records of a batch land in the same output stream of
`send` exactly when they share (level, logger-name, label values) — each
key's stream consists precisely of the clamped items of the records with
that key — and within each stream the values are sorted non-decreasing by
clamped timestamp. -/
theorem claim_C3 (st : SendState T) (hne : st.batch ≠ []) :
    (∀ k : logKey T,
      lookupKey (((send st).2).getD []) k =
        List.insertionSort timeLE
          ((st.batch.filter (fun r => decide (keyOf r = k))).map
            (mkItem st.lastTime)))
    ∧ (∀ g ∈ ((send st).2).getD [], List.Sorted timeLE g.2) := by
  have hsend : (send st).2 = some (sortGroups (drainBatch st.lastTime st.batch)) := by
    simp [send, hne]
  constructor
  · intro k
    rw [hsend, Option.getD_some, lookupKey_sortGroups, lookupKey_drainBatch]
  · intro g hg
    rw [hsend, Option.getD_some] at hg
    exact sortGroups_sorted _ g hg

/-- Witness for C3: two same-key records; the stream at their key is the
sorted list of their clamped items. -/
theorem claim_C3_witness :
    lookupKey (((send (⟨0, [⟨5, "info", "", true, "a"⟩,
        ⟨1, "info", "", true, "b"⟩]⟩ : SendState Bool)).2).getD [])
      ⟨"info", "", true⟩ =
      List.insertionSort timeLE
        (([⟨5, "info", "", true, "a"⟩,
            ⟨1, "info", "", true, "b"⟩].filter
          (fun r => decide (keyOf r = (⟨"info", "", true⟩ : logKey Bool)))).map
          (mkItem 0)) :=
  (claim_C3 (⟨0, [⟨5, "info", "", true, "a"⟩, ⟨1, "info", "", true, "b"⟩]⟩ :
      SendState Bool) (by decide)).1 ⟨"info", "", true⟩

/-- Claim C2: the watermark is monotonically non-decreasing across
flushes; after a nonempty flush it equals the maximum of the previous
watermark and the largest parsed timestamp of the flush (an empty flush
leaves it unchanged), and every record whose parsed timestamp is below the
watermark current at flush start is emitted with its timestamp replaced by
that watermark value. -/
theorem claim_C2 (st : SendState T) :
    st.lastTime ≤ (send st).1.lastTime
    ∧ (st.batch = [] → (send st).1.lastTime = st.lastTime)
    ∧ (st.batch ≠ [] →
        (send st).1.lastTime = max st.lastTime (maxObserved st.batch)
        ∧ ∀ r ∈ st.batch, r.ts < st.lastTime →
          (⟨st.lastTime, r.payload⟩ : logItem) ∈
            lookupKey (((send st).2).getD []) (keyOf r)) := by
  obtain ⟨lt, batch⟩ := st
  by_cases hne : batch = []
  · subst hne
    refine ⟨le_refl _, fun _ => ?_, fun h => absurd rfl h⟩
    simp [send]
  · have hG : (send (⟨lt, batch⟩ : SendState T)).1.lastTime
        = updateLast lt (sortGroups (drainBatch lt batch)) := by
      simp [send, hne]
    have hub : updateLast lt (sortGroups (drainBatch lt batch))
        ≤ max lt (maxObserved batch) := by
      refine updateLast_le _ lt _ (le_max_left _ _) ?_
      intro g hg
      rcases List.mem_map.mp hg with ⟨g0, hg0, rfl⟩
      obtain ⟨k0, its0⟩ := g0
      dsimp only
      have hne0 : its0 ≠ [] := drainBatch_ne_nil lt batch (k0, its0) hg0
      have hbound : ∀ i ∈ its0, i.Time ≤ max lt (maxObserved batch) := by
        intro i hi
        have hchar : lookupKey (drainBatch lt batch) k0 = its0 :=
          lookupKey_of_mem_nodup _ _ _ (keys_nodup_drainBatch lt batch) hg0
        rw [← hchar, lookupKey_drainBatch] at hi
        rcases List.mem_map.mp hi with ⟨r, hrf, heq⟩
        rw [← heq, mkItem]
        dsimp only
        rw [clampTs_eq_max]
        exact max_le_max (le_refl lt)
          (mem_le_maxObserved batch r (List.mem_of_mem_filter hrf))
      have hne1 : List.insertionSort timeLE its0 ≠ [] := by
        intro hnil
        apply hne0
        have hlen := congrArg List.length hnil
        rw [List.length_insertionSort] at hlen
        exact List.eq_nil_of_length_eq_zero hlen
      have hlast := getLastD_mem_of_ne_nil (List.insertionSort timeLE its0)
        ⟨0, ""⟩ hne1
      exact hbound _ ((List.mem_insertionSort timeLE).mp hlast)
    have hlb : max lt (maxObserved batch)
        ≤ updateLast lt (sortGroups (drainBatch lt batch)) := by
      refine max_le (le_updateLast _ lt) ?_
      refine maxObserved_le batch _ hne ?_
      intro r hr
      have hmem := mkItem_mem_send lt batch r hr
      have hsend : (send (⟨lt, batch⟩ : SendState T)).2
          = some (sortGroups (drainBatch lt batch)) := by
        simp [send, hne]
      rw [hsend, Option.getD_some] at hmem
      obtain ⟨g, hgG, hk, hi⟩ := exists_group_of_mem_lookupKey _ _ _ hmem
      have hsorted : List.Sorted timeLE g.2 := sortGroups_sorted _ g hgG
      have h1 : (mkItem lt r).Time ≤ (g.2.getLastD ⟨0, ""⟩).Time :=
        sorted_le_getLastD g.2 _ hsorted _ hi
      have h2 : (g.2.getLastD ⟨0, ""⟩).Time
          ≤ updateLast lt (sortGroups (drainBatch lt batch)) :=
        group_le_updateLast _ lt g hgG
      have h0 : r.ts ≤ (mkItem lt r).Time := by
        rw [mkItem, clampTs_eq_max]
        exact le_max_right _ _
      exact le_trans h0 (le_trans h1 h2)
    have heq : (send (⟨lt, batch⟩ : SendState T)).1.lastTime
        = max lt (maxObserved batch) := by
      rw [hG]
      exact le_antisymm hub hlb
    refine ⟨?_, fun h => absurd h hne, fun _ => ⟨heq, ?_⟩⟩
    · rw [heq]
      exact le_max_left _ _
    · intro r hr hlt
      have h := mkItem_mem_send lt batch r hr
      have hit : mkItem lt r = (⟨lt, r.payload⟩ : logItem) := by
        simp [mkItem, clampTs, hlt]
      rwa [hit] at h

/-- Witness for C2 at a concrete nonempty batch: watermark 3, record
timestamps 5 and 1; the new watermark is `max 3 5` and the late record is
emitted clamped to time 3. -/
theorem claim_C2_witness :
    (send (⟨3, [⟨5, "info", "", true, "a"⟩, ⟨1, "info", "", true, "b"⟩]⟩ :
        SendState Bool)).1.lastTime =
      max 3 (maxObserved [⟨5, "info", "", true, "a"⟩, ⟨1, "info", "", true, "b"⟩])
    ∧ (⟨3, "b"⟩ : logItem) ∈
        lookupKey (((send (⟨3, [⟨5, "info", "", true, "a"⟩,
            ⟨1, "info", "", true, "b"⟩]⟩ : SendState Bool)).2).getD [])
          (keyOf (⟨1, "info", "", true, "b"⟩ : RawRecord Bool)) :=
  ⟨((claim_C2 (⟨3, [⟨5, "info", "", true, "a"⟩, ⟨1, "info", "", true, "b"⟩]⟩ :
      SendState Bool)).2.2 (by decide)).1,
   ((claim_C2 (⟨3, [⟨5, "info", "", true, "a"⟩, ⟨1, "info", "", true, "b"⟩]⟩ :
      SendState Bool)).2.2 (by decide)).2 ⟨1, "info", "", true, "b"⟩
     (by decide) (by decide)⟩

/-- Claim C10: the watermark is initialized to the wall-clock time of
pipeline construction, so a record whose timestamp predates construction
is emitted clamped up to the construction time in its first delivered
payload. -/
theorem claim_C10 (now : Int) (batch : List (RawRecord T)) (r : RawRecord T)
    (hr : r ∈ batch) (hts : r.ts < now) :
    (withRemoteInit T now).lastTime = now
    ∧ (⟨now, r.payload⟩ : logItem) ∈
        lookupKey (((send (⟨(withRemoteInit T now).lastTime, batch⟩ :
            SendState T)).2).getD []) (keyOf r) := by
  refine ⟨rfl, ?_⟩
  have h := mkItem_mem_send now batch r hr
  have hit : mkItem now r = (⟨now, r.payload⟩ : logItem) := by
    simp [mkItem, clampTs, hts]
  rw [hit] at h
  exact h

/-- Witness for C10: construction at time 10, one record with timestamp 4;
its first payload entry carries time 10. -/
theorem claim_C10_witness :
    (⟨10, "a"⟩ : logItem) ∈
      lookupKey (((send (⟨(withRemoteInit Bool 10).lastTime,
          [⟨4, "info", "", true, "a"⟩]⟩ : SendState Bool)).2).getD [])
        (keyOf (⟨4, "info", "", true, "a"⟩ : RawRecord Bool)) :=
  (claim_C10 10 [⟨4, "info", "", true, "a"⟩] ⟨4, "info", "", true, "a"⟩
    (by decide) (by decide)).2

end LoggerRemote
